import Mathlib

/-!
Verification development for the gacua Agent Execution Core.

Definitions are shallow embeddings of the TypeScript sources under
`packages/gacua/backend/src` (screen tiler, session repository, grounding
validation, tool catalog, message recovery, and the agent loop).  Machine
numbers are embedded as `Nat`/`Int`/`Rat` with exact arithmetic; the
floating-point expressions in the source (`Math.round(v / 1000 * s)`,
`Math.round(s * 0.5)`) are embedded by their exact rational values, which
agree with IEEE doubles on the ranges exercised here.
-/

/- ## Screen geometry (screen.ts) -/

/-- A screen/image resolution, `screen.ts` `Resolution`. -/
structure Resolution where
  width : Nat
  height : Nat
deriving DecidableEq, Repr

/-- A screen coordinate, `screen.ts` `Coordinate`. -/
structure Coordinate where
  x : Nat
  y : Nat
deriving DecidableEq, Repr

/-- A normalized bounding box, `screen.ts` `Box`. -/
structure Box where
  ymin : Nat
  xmin : Nat
  ymax : Nat
  xmax : Nat
deriving DecidableEq, Repr

/-- `Math.round(s * 0.5)`: round-half-up of s/2, exactly `(s + 1) / 2` on naturals.
Source: `screen.ts` `setCropConfiguration`, `const cropStep = Math.round(this.cropSquareSideLength * 0.5)`. -/
def cropStep (s : Nat) : Nat := (s + 1) / 2

/-- `Math.round(v / 1000 * s)` for `0 ≤ v`: round-half-up of `v*s/1000`,
exactly `(2*v*s + 1000) / 2000` on naturals.
Source: `screen.ts` `toScreenCoordinate`, `Math.round((center.x / 1000) * this.cropSquareSideLength)`. -/
def denorm (s v : Nat) : Nat := (2 * v * s + 1000) / 2000

/-- The `while (x + side < len) { push x; x += step }` loop of
`Screen.setCropConfiguration`.  The extra `0 < step` guard encodes termination:
the source loop diverges when `step = 0`, which is unreachable because the tile
side is the positive height/width of a decoded screenshot. -/
def cropLoop (s len step : Nat) (x : Nat) : List Nat :=
  if h : 0 < step ∧ x + s < len then
    x :: cropLoop s len step (x + step)
  else
    []
termination_by len - x
decreasing_by omega

/-- The step-based starting offsets along the long axis: origin plus the loop
starts of `setCropConfiguration`. -/
def startsList (s len : Nat) : List Nat :=
  0 :: cropLoop s len (cropStep s) (cropStep s)

/-- The starting offsets after the capping rule of `setCropConfiguration`:
an extra start at `len - s` is appended when it exceeds the last start. -/
def cappedStarts (s len : Nat) : List Nat :=
  if len - s > (startsList s len).getLastD 0 then
    startsList s len ++ [len - s]
  else
    startsList s len

/-- `Screen.setCropConfiguration`: the ordered starting points of the square
tiles as computed in `screen.ts`; the tile side is `min width height`, the
long axis is x ("vertical" cropping) when `width > height` and y otherwise. -/
def squareStartingPoints (res : Resolution) : List Coordinate :=
  if res.width > res.height then
    (cappedStarts (min res.width res.height) res.width).map (fun x => ⟨x, 0⟩)
  else
    (cappedStarts (min res.width res.height) res.height).map (fun y => ⟨0, y⟩)

/-- `Screen.getBoxCenter`: integer-floor center of a box. -/
def getBoxCenter (b : Box) : Coordinate :=
  ⟨(b.xmin + b.xmax) / 2, (b.ymin + b.ymax) / 2⟩

/-- Argument of `Screen.toScreenCoordinate`: a box or a point. -/
inductive BoxOrCoordinate where
  | box (b : Box)
  | coord (c : Coordinate)
deriving DecidableEq, Repr

/-- `Screen.toScreenCoordinate`: de-normalize a box (via its floor center) or a
point inside tile `index` to absolute screen coordinates.  The index must be a
valid tile index (the source would read `undefined` otherwise). -/
def toScreenCoordinate (res : Resolution) (index : Nat) (boc : BoxOrCoordinate)
    (h : index < (squareStartingPoints res).length) : Coordinate :=
  let center := match boc with
    | .box b => getBoxCenter b
    | .coord c => c
  let s := min res.width res.height
  let sp := (squareStartingPoints res).get ⟨index, h⟩
  ⟨sp.x + denorm s center.x, sp.y + denorm s center.y⟩

/-- The arithmetic floor of the midpoint of the de-normalized rectangle of a
box: de-normalize the two corner points (as `Screen.toScreenRectangle` does)
and take the floor of their midpoint, coordinatewise. -/
def floorRectMidpoint (res : Resolution) (index : Nat) (b : Box)
    (h : index < (squareStartingPoints res).length) : Coordinate :=
  let lt := toScreenCoordinate res index (.coord ⟨b.xmin, b.ymin⟩) h
  let rb := toScreenCoordinate res index (.coord ⟨b.xmax, b.ymax⟩) h
  ⟨(lt.x + rb.x) / 2, (lt.y + rb.y) / 2⟩

/- ### Geometry lemmas -/

theorem cropLoop_mem (s len step : Nat) (x : Nat) :
    ∀ y ∈ cropLoop s len step x, y + s < len := by
  induction x using cropLoop.induct s len step with
  | case1 x h ih =>
      intro y hy
      rw [cropLoop, dif_pos h] at hy
      rcases List.mem_cons.mp hy with rfl | hy
      · exact h.2
      · exact ih y hy
  | case2 x h =>
      intro y hy
      rw [cropLoop, dif_neg h] at hy
      simp at hy

theorem cropLoop_head (s len step x : Nat) :
    cropLoop s len step x = [] ∨ ∃ t, cropLoop s len step x = x :: t := by
  rw [cropLoop]
  split
  · exact Or.inr ⟨_, rfl⟩
  · exact Or.inl rfl

theorem cropLoop_chain (s len step : Nat) (x : Nat) :
    List.Chain' (fun a b => b = a + step) (cropLoop s len step x) := by
  induction x using cropLoop.induct s len step with
  | case1 x h ih =>
      rw [cropLoop, dif_pos h]
      refine List.chain'_cons'.mpr ⟨?_, ih⟩
      intro y hy
      rcases cropLoop_head s len step (x + step) with he | ⟨t, he⟩
      · rw [he] at hy; simp at hy
      · rw [he] at hy; simp at hy; omega
  | case2 x h =>
      rw [cropLoop, dif_neg h]
      exact List.chain'_nil

theorem cropLoop_last (s len step : Nat) (x : Nat) :
    (cropLoop s len step x = [] → len ≤ x + s ∨ step = 0) ∧
      (∀ z, (cropLoop s len step x).getLast? = some z →
        len ≤ z + step + s ∨ step = 0) := by
  induction x using cropLoop.induct s len step with
  | case1 x h ih =>
      constructor
      · intro he
        rw [cropLoop, dif_pos h] at he
        simp at he
      · intro z hz
        rw [cropLoop, dif_pos h] at hz
        rcases hcl : cropLoop s len step (x + step) with _ | ⟨b, t⟩
        · rw [hcl] at hz
          simp at hz
          rcases ih.1 hcl with hle | h0
          · left; omega
          · right; exact h0
        · rw [hcl] at hz
          rw [List.getLast?_cons_cons] at hz
          exact ih.2 z (by rw [hcl]; exact hz)
  | case2 x h =>
      constructor
      · intro _
        rcases Nat.eq_zero_or_pos step with h0 | hpos
        · right; exact h0
        · left; omega
      · intro z hz
        rw [cropLoop, dif_neg h] at hz
        simp at hz

theorem getLastD_mem : ∀ (t : List Nat) (d : Nat), t ≠ [] → t.getLastD d ∈ t
  | [], _, hne => absurd rfl hne
  | [a], d, _ => by simp
  | a :: b :: t, d, _ => by
      rw [List.getLastD_cons]
      exact List.mem_cons_of_mem _ (getLastD_mem (b :: t) a (by simp))

theorem getLast?_eq_getLastD :
    ∀ (t : List Nat) (d : Nat), t ≠ [] → t.getLast? = some (t.getLastD d)
  | [], _, hne => absurd rfl hne
  | [a], d, _ => by simp
  | a :: b :: t, d, _ => by
      rw [List.getLastD_cons, List.getLast?_cons_cons]
      exact getLast?_eq_getLastD (b :: t) a (by simp)

theorem startsList_mem (s len : Nat) (hsl : s < len) :
    ∀ y ∈ startsList s len, y + s < len := by
  intro y hy
  rcases List.mem_cons.mp hy with rfl | hy
  · omega
  · exact cropLoop_mem _ _ _ _ y hy

theorem startsList_chain (s len : Nat) :
    List.Chain' (fun a b => b = a + cropStep s) (startsList s len) := by
  refine List.chain'_cons'.mpr ⟨?_, cropLoop_chain _ _ _ _⟩
  intro y hy
  rcases cropLoop_head s len (cropStep s) (cropStep s) with he | ⟨t, he⟩
  · rw [he] at hy; simp at hy
  · rw [he] at hy; simp at hy; omega

theorem startsList_last (s len : Nat) (hstep : 0 < cropStep s) :
    len ≤ (startsList s len).getLastD 0 + cropStep s + s := by
  unfold startsList
  rw [List.getLastD_cons]
  rcases hcl : cropLoop s len (cropStep s) (cropStep s) with _ | ⟨b, t⟩
  · rcases (cropLoop_last s len (cropStep s) (cropStep s)).1 hcl with hle | h0
    · simpa using hle
    · omega
  · have hne : cropLoop s len (cropStep s) (cropStep s) ≠ [] := by rw [hcl]; simp
    have hlast := getLast?_eq_getLastD (cropLoop s len (cropStep s) (cropStep s)) 0 hne
    rcases (cropLoop_last s len (cropStep s) (cropStep s)).2 _ hlast with hle | h0
    · rw [hcl] at hle
      exact hle
    · omega

theorem cappedStarts_eq (s len : Nat) (hsl : s < len) :
    cappedStarts s len = startsList s len ++ [len - s] := by
  unfold cappedStarts
  rw [if_pos]
  have hmem : (startsList s len).getLastD 0 ∈ startsList s len :=
    getLastD_mem _ 0 (by unfold startsList; simp)
  have := startsList_mem s len hsl _ hmem
  omega

/-- `0 < cropStep s` whenever `0 < s`. -/
theorem cropStep_pos (s : Nat) (hs : 0 < s) : 0 < cropStep s := by
  unfold cropStep; omega

/- ### C3: core arithmetic bound for the box-center de-normalization -/

theorem denorm_center_bound (s a b : Nat) (hab : a ≤ b) :
    denorm s ((a + b) / 2) ≤ (denorm s a + denorm s b) / 2 + (s / 2000 + 2) ∧
      (denorm s a + denorm s b) / 2 ≤ denorm s ((a + b) / 2) + (s / 2000 + 2) := by
  unfold denorm
  rw [show 2 * a * s = 2 * (a * s) by ring, show 2 * b * s = 2 * (b * s) by ring,
    show 2 * ((a + b) / 2) * s = 2 * (((a + b) / 2) * s) by ring]
  have hm : a + b = 2 * ((a + b) / 2) + (a + b) % 2 := (Nat.div_add_mod _ _).symm
  have hr : (a + b) % 2 < 2 := Nat.mod_lt _ (by omega)
  have hpq : a * s ≤ b * s := Nat.mul_le_mul_right s hab
  have key : 2 * (((a + b) / 2) * s) + ((a + b) % 2) * s = a * s + b * s := by
    calc 2 * (((a + b) / 2) * s) + ((a + b) % 2) * s
        = (2 * ((a + b) / 2) + (a + b) % 2) * s := by ring
    _ = (a + b) * s := by rw [← hm]
    _ = a * s + b * s := by ring
  generalize a * s = p at hpq key
  generalize b * s = q at hpq key
  generalize ((a + b) / 2) * s = P at key
  rcases (by omega : (a + b) % 2 = 0 ∨ (a + b) % 2 = 1) with h0 | h0 <;>
    rw [h0] at key <;> omega

/- ### C3 theorems -/

/-- Helper: the tile list of a 3×2 resolution has a tile 0. -/
theorem squareStartingPoints_3_2 : squareStartingPoints ⟨3, 2⟩ = [⟨0, 0⟩, ⟨1, 0⟩] := by
  simp [squareStartingPoints, cappedStarts, startsList, cropLoop, cropStep]

/-- C3 counterexample: for the screen geometry of a 3×2 screenshot (tile side
s = 2), tile 0, and the box [ymin, xmin, ymax, xmax] = [0, 0, 500, 500],
de-normalizing the integer-floor center gives (1, 1) while the arithmetic
floor of the de-normalized rectangle's midpoint is (0, 0): the claimed
identity fails. -/
theorem claim3_counterexample :
    ∃ h : 0 < (squareStartingPoints ⟨3, 2⟩).length,
      toScreenCoordinate ⟨3, 2⟩ 0 (.box ⟨0, 0, 500, 500⟩) h ≠
        floorRectMidpoint ⟨3, 2⟩ 0 ⟨0, 0, 500, 500⟩ h := by
  refine ⟨by rw [squareStartingPoints_3_2]; decide, ?_⟩
  simp [toScreenCoordinate, floorRectMidpoint, squareStartingPoints_3_2,
    getBoxCenter, denorm]

/-- C3 amended: de-normalizing the integer-floor center of a box agrees with
the arithmetic floor of the de-normalized rectangle's midpoint only up to
`s / 2000 + 2` in each coordinate (s the tile side); exact equality can fail
(see the counterexample). -/
theorem claim3_amended (res : Resolution) (index : Nat) (b : Box)
    (h : index < (squareStartingPoints res).length)
    (hx : b.xmin ≤ b.xmax) (hy : b.ymin ≤ b.ymax) :
    ((toScreenCoordinate res index (.box b) h).x ≤
        (floorRectMidpoint res index b h).x +
          (min res.width res.height / 2000 + 2) ∧
      (floorRectMidpoint res index b h).x ≤
        (toScreenCoordinate res index (.box b) h).x +
          (min res.width res.height / 2000 + 2)) ∧
    ((toScreenCoordinate res index (.box b) h).y ≤
        (floorRectMidpoint res index b h).y +
          (min res.width res.height / 2000 + 2) ∧
      (floorRectMidpoint res index b h).y ≤
        (toScreenCoordinate res index (.box b) h).y +
          (min res.width res.height / 2000 + 2)) := by
  simp only [floorRectMidpoint, toScreenCoordinate, getBoxCenter]
  have hbx := denorm_center_bound (min res.width res.height) b.xmin b.xmax hx
  have hby := denorm_center_bound (min res.width res.height) b.ymin b.ymax hy
  set sp := (squareStartingPoints res).get ⟨index, h⟩
  constructor <;> constructor <;> omega

/-- C3 witness: the amended bound instantiated at the 3×2 geometry, tile 0,
box [0, 0, 500, 500] (tile side 2, so the allowed deviation is 2). -/
theorem claim3_witness :
    (toScreenCoordinate ⟨3, 2⟩ 0 (.box ⟨0, 0, 500, 500⟩)
          (by rw [squareStartingPoints_3_2]; decide)).x ≤
      (floorRectMidpoint ⟨3, 2⟩ 0 ⟨0, 0, 500, 500⟩
          (by rw [squareStartingPoints_3_2]; decide)).x +
        (min 3 2 / 2000 + 2) :=
  (claim3_amended ⟨3, 2⟩ 0 ⟨0, 0, 500, 500⟩
      (by rw [squareStartingPoints_3_2]; decide)
      (by decide) (by decide)).1.1

/- ### C5 theorems -/

/-- Helper: the starting points of a 1000×768 screenshot are (0,0) and (232,0). -/
theorem squareStartingPoints_1000_768 :
    squareStartingPoints ⟨1000, 768⟩ = [⟨0, 0⟩, ⟨232, 0⟩] := by
  simp [squareStartingPoints, cappedStarts, startsList, cropLoop, cropStep]

/-- C5 counterexample: for a 1000×768 screenshot (wider than tall, tile side
s = 768, step round(s·0.5) = 384) the computed starting x's are [0, 232], and
the second start does not differ from the first by the step: the capped final
start breaks the claimed constant-step property. -/
theorem claim5_counterexample :
    ¬ List.Chain' (fun a b => b = a + cropStep 768)
        ((squareStartingPoints ⟨1000, 768⟩).map (fun c => c.x)) := by
  rw [squareStartingPoints_1000_768]
  simp [cropStep]

/-- C5 amended: for a screenshot wider than tall (with positive height, tile
side s = height), the starting x's begin at 0, strictly increase with gaps of
at most round(s·0.5), all gaps except possibly the final one equal
round(s·0.5) exactly, every start satisfies x + s ≤ width, and the last start
satisfies x + s = width. -/
theorem claim5_amended (res : Resolution) (hwh : res.height < res.width)
    (hh : 0 < res.height) :
    ((squareStartingPoints res).map (fun c => c.x)).head? = some 0 ∧
    List.Chain' (fun a b => a < b ∧ b ≤ a + cropStep res.height)
      ((squareStartingPoints res).map (fun c => c.x)) ∧
    List.Chain' (fun a b => b = a + cropStep res.height)
      ((squareStartingPoints res).map (fun c => c.x)).dropLast ∧
    (∀ x ∈ (squareStartingPoints res).map (fun c => c.x), x + res.height ≤ res.width) ∧
    ((squareStartingPoints res).map (fun c => c.x)).getLast? =
      some (res.width - res.height) := by
  have hmin : min res.width res.height = res.height := min_eq_right hwh.le
  have hstep : 0 < cropStep res.height := cropStep_pos _ hh
  have hxs : (squareStartingPoints res).map (fun c => c.x) =
      startsList res.height res.width ++ [res.width - res.height] := by
    unfold squareStartingPoints
    rw [if_pos hwh, hmin, cappedStarts_eq _ _ hwh]
    simp [List.map_map, Function.comp_def]
  have hne : startsList res.height res.width ≠ [] := by unfold startsList; simp
  have hlastD : (startsList res.height res.width).getLast? =
      some ((startsList res.height res.width).getLastD 0) :=
    getLast?_eq_getLastD _ 0 hne
  have hlmem : (startsList res.height res.width).getLastD 0 ∈
      startsList res.height res.width := getLastD_mem _ 0 hne
  have hlbound := startsList_mem res.height res.width hwh _ hlmem
  have hlcap := startsList_last res.height res.width hstep
  rw [hxs]
  refine ⟨?_, ?_, ?_, ?_, ?_⟩
  · unfold startsList; simp
  · refine List.chain'_append.mpr ⟨?_, List.chain'_singleton _, ?_⟩
    · exact (startsList_chain res.height res.width).imp (fun a b hab => by omega)
    · intro x hxl y hyl
      rw [hlastD, Option.mem_some_iff] at hxl
      simp only [List.head?_cons, Option.mem_some_iff] at hyl
      subst hxl
      subst hyl
      omega
  · rw [List.dropLast_concat]
    exact startsList_chain res.height res.width
  · intro x hxm
    rcases List.mem_append.mp hxm with hxm | hxm
    · have := startsList_mem res.height res.width hwh x hxm
      omega
    · simp at hxm
      omega
  · exact List.getLast?_concat _

/-- C5 witness: the amended properties at the concrete 1000×768 resolution. -/
theorem claim5_witness :
    ((squareStartingPoints ⟨1000, 768⟩).map (fun c => c.x)).head? = some 0 ∧
    List.Chain' (fun a b => a < b ∧ b ≤ a + cropStep 768)
      ((squareStartingPoints ⟨1000, 768⟩).map (fun c => c.x)) ∧
    List.Chain' (fun a b => b = a + cropStep 768)
      ((squareStartingPoints ⟨1000, 768⟩).map (fun c => c.x)).dropLast ∧
    (∀ x ∈ (squareStartingPoints ⟨1000, 768⟩).map (fun c => c.x), x + 768 ≤ 1000) ∧
    ((squareStartingPoints ⟨1000, 768⟩).map (fun c => c.x)).getLast? =
      some (1000 - 768) :=
  claim5_amended ⟨1000, 768⟩ (by decide) (by decide)

/- ## JSON values and `JSON.parse` (session log records, grounding output) -/

/-- A JSON value as produced by `JSON.parse`.  Numbers are represented exactly
as `mant · 10 ^ exp10` (mantissa and decimal exponent); two spellings of the
same value (e.g. `2.50` vs `2.5e0`) may have different representations, which
is irrelevant here because no claim compares differently-spelled numbers. -/
inductive Json where
  | null
  | bool (b : Bool)
  | num (mant : Int) (exp10 : Int)
  | str (s : String)
  | arr (elems : List Json)
  | obj (fields : List (String × Json))

/-- JSON whitespace (also the ASCII core of JS `String.prototype.trim`). -/
def isJsonWs (c : Char) : Bool := c = ' ' || c = '\n' || c = '\t' || c = '\r'

def skipWs : List Char → List Char
  | [] => []
  | c :: cs => if isJsonWs c then skipWs cs else c :: cs

/-- Body of a JSON string literal (after the opening quote), with the common
escape sequences; `\u` escapes and the control-character restriction of strict
JSON are not modelled (no claim exercises them). -/
def parseStringBody : Nat → List Char → List Char → Option (String × List Char)
  | 0, _, _ => none
  | _ + 1, _, [] => none
  | fuel + 1, acc, c :: cs =>
    if c = '"' then some (String.mk acc.reverse, cs)
    else if c = '\\' then
      match cs with
      | [] => none
      | e :: cs' =>
        let esc : Option Char :=
          if e = '"' then some '"'
          else if e = '\\' then some '\\'
          else if e = '/' then some '/'
          else if e = 'n' then some '\n'
          else if e = 't' then some '\t'
          else if e = 'r' then some '\r'
          else none
        match esc with
        | some ch => parseStringBody fuel (ch :: acc) cs'
        | none => none
    else parseStringBody fuel (c :: acc) cs

def digitVal (c : Char) : Option Nat :=
  if '0' ≤ c ∧ c ≤ '9' then some (c.toNat - '0'.toNat) else none

def parseDigits : List Char → List Nat × List Char
  | [] => ([], [])
  | c :: cs =>
    match digitVal c with
    | some d => ((parseDigits cs).1.cons d, (parseDigits cs).2)
    | none => ([], c :: cs)

def digitsToNat (ds : List Nat) : Nat := ds.foldl (fun a d => a * 10 + d) 0

def parseFrac : List Char → Option (List Nat × List Char)
  | '.' :: rest =>
    match parseDigits rest with
    | ([], _) => none
    | (ds, cs') => some (ds, cs')
  | cs => some ([], cs)

def parseExp : List Char → Option (Int × List Char)
  | [] => some (0, [])
  | c :: rest =>
    if c = 'e' || c = 'E' then
      let signRest : Bool × List Char :=
        match rest with
        | '+' :: r => (false, r)
        | '-' :: r => (true, r)
        | r => (false, r)
      match parseDigits signRest.2 with
      | ([], _) => none
      | (ds, cs') =>
        some (if signRest.1 then -(digitsToNat ds : Int) else (digitsToNat ds : Int), cs')
    else some (0, c :: rest)

/-- A strict-JSON number: optional sign, integer part without leading zeros,
optional fraction, optional exponent; represented exactly. -/
def parseNumber (cs : List Char) : Option (Json × List Char) :=
  let signRest : Bool × List Char :=
    match cs with
    | '-' :: rest => (true, rest)
    | _ => (false, cs)
  match parseDigits signRest.2 with
  | ([], _) => none
  | (ds, cs2) =>
    if 1 < ds.length ∧ ds.headD 0 = 0 then none
    else
      match parseFrac cs2 with
      | none => none
      | some (fds, cs3) =>
        match parseExp cs3 with
        | none => none
        | some (e, cs4) =>
          let mag : Int := (digitsToNat (ds ++ fds) : Int)
          some (.num (if signRest.1 then -mag else mag) (e - fds.length), cs4)

mutual

def parseValue : Nat → List Char → Option (Json × List Char)
  | 0, _ => none
  | fuel + 1, cs =>
    match skipWs cs with
    | [] => none
    | c :: rest =>
      if c = '\x7b' then
        match skipWs rest with
        | '\x7d' :: rest' => some (.obj [], rest')
        | cs' =>
          match parseMembers fuel cs' with
          | some (fs, rest') => some (.obj fs, rest')
          | none => none
      else if c = '[' then
        match skipWs rest with
        | ']' :: rest' => some (.arr [], rest')
        | cs' =>
          match parseElems fuel cs' with
          | some (vs, rest') => some (.arr vs, rest')
          | none => none
      else if c = '"' then
        match parseStringBody (rest.length + 1) [] rest with
        | some (s, rest') => some (.str s, rest')
        | none => none
      else if c = 't' then
        match rest with
        | 'r' :: 'u' :: 'e' :: rest' => some (.bool true, rest')
        | _ => none
      else if c = 'f' then
        match rest with
        | 'a' :: 'l' :: 's' :: 'e' :: rest' => some (.bool false, rest')
        | _ => none
      else if c = 'n' then
        match rest with
        | 'u' :: 'l' :: 'l' :: rest' => some (.null, rest')
        | _ => none
      else
        match parseNumber (c :: rest) with
        | some (j, rest') => some (j, rest')
        | none => none

def parseElems : Nat → List Char → Option (List Json × List Char)
  | 0, _ => none
  | fuel + 1, cs =>
    match parseValue fuel cs with
    | none => none
    | some (v, cs1) =>
      match skipWs cs1 with
      | ',' :: cs2 =>
        match parseElems fuel cs2 with
        | some (vs, rest) => some (v :: vs, rest)
        | none => none
      | ']' :: cs2 => some ([v], cs2)
      | _ => none

def parseMembers : Nat → List Char → Option (List (String × Json) × List Char)
  | 0, _ => none
  | fuel + 1, cs =>
    match skipWs cs with
    | '"' :: cs0 =>
      match parseStringBody (cs0.length + 1) [] cs0 with
      | none => none
      | some (k, cs1) =>
        match skipWs cs1 with
        | ':' :: cs2 =>
          match parseValue fuel cs2 with
          | none => none
          | some (v, cs3) =>
            match skipWs cs3 with
            | ',' :: cs4 =>
              match parseMembers fuel cs4 with
              | some (fs, rest) => some ((k, v) :: fs, rest)
              | none => none
            | '\x7d' :: cs4 => some ([(k, v)], cs4)
            | _ => none
        | _ => none
    | _ => none

end

/-- `JSON.parse` on a whole text: one value, with only whitespace around it.
The fuel `cs.length + 1` dominates the nesting depth, which grows by at least
one consumed character per level. -/
def jsonParse (cs : List Char) : Option Json :=
  match parseValue (cs.length + 1) cs with
  | some (j, rest) => if skipWs rest = [] then some j else none
  | none => none

example : jsonParse (String.toList "\x7b\"id\":\"1\"\x7d") =
    some (Json.obj [("id", Json.str "1")]) := rfl

example : jsonParse (String.toList "\x7b\"id\":\"2") = none := rfl

example : jsonParse (String.toList "[10.5, 10]") =
    some (Json.arr [Json.num 105 (-1), Json.num 10 0]) := rfl

/- ## Session repository (repository/session.ts) -/

/-- JS `content.split('\n')` on a character list: every newline separates two
(possibly empty) segments. -/
def splitLines : List Char → List (List Char)
  | [] => [[]]
  | c :: cs =>
    if c = '\n' then [] :: splitLines cs
    else
      match splitLines cs with
      | [] => [[c]]
      | l :: ls => (c :: l) :: ls

/-- Inverse of `splitLines`: join segments with newlines. -/
def joinLines : List (List Char) → List Char
  | [] => []
  | [l] => l
  | l :: ls => l ++ '\n' :: joinLines ls

/-- JS `line.trim()` (ASCII whitespace). -/
def jsTrim (cs : List Char) : List Char :=
  ((cs.dropWhile (fun c => isJsonWs c)).reverse.dropWhile (fun c => isJsonWs c)).reverse

/-- `lines.map(JSON.parse)`: all-or-nothing, a single bad line throws. -/
def parseAll : List (List Char) → Option (List Json)
  | [] => some []
  | l :: ls =>
    match jsonParse l, parseAll ls with
    | some j, some js => some (j :: js)
    | _, _ => none

/-- The value of the `forDisplay` property of a parsed record (JSON.parse keeps
the last occurrence of a duplicated key). -/
def forDisplayField (j : Json) : Option Json :=
  match j with
  | .obj fs => fs.reverse.lookup "forDisplay"
  | _ => none

/-- JS `message.forDisplay !== false`. -/
def forDisplayNotFalse (j : Json) : Bool :=
  match forDisplayField j with
  | some (.bool false) => false
  | _ => true

/-- `SessionRepository.getMessages`, applied to the text of `messages.jsonl`:
split into lines, drop whitespace-only lines, `JSON.parse` each remaining line
(a parse failure throws), and filter to `forDisplay !== false` unless
`includeHidden`. -/
def getMessages (content : List Char) (includeHidden : Bool) :
    Except String (List Json) :=
  match parseAll ((splitLines content).filter (fun l => !(jsTrim l).isEmpty)) with
  | none => .error "JSON.parse"
  | some msgs =>
    .ok (if includeHidden then msgs else msgs.filter forDisplayNotFalse)

/- ### splitLines / joinLines lemmas -/

theorem splitLines_ne_nil (cs : List Char) : splitLines cs ≠ [] := by
  induction cs with
  | nil => simp [splitLines]
  | cons c cs ih =>
      rw [splitLines]
      split
      · simp
      · rcases h : splitLines cs with _ | ⟨l, ls⟩
        · simp
        · simp

theorem splitLines_no_newline (cs : List Char) :
    ∀ l ∈ splitLines cs, '\n' ∉ l := by
  induction cs with
  | nil =>
      intro l hl
      simp [splitLines] at hl
      simp [hl]
  | cons c cs ih =>
      intro l hl
      rw [splitLines] at hl
      by_cases hc : c = '\n'
      · rw [if_pos hc] at hl
        rcases List.mem_cons.mp hl with rfl | hl
        · simp
        · exact ih l hl
      · rw [if_neg hc] at hl
        rcases h : splitLines cs with _ | ⟨l0, ls⟩
        · exact absurd h (splitLines_ne_nil cs)
        · rw [h] at hl
          rcases List.mem_cons.mp hl with rfl | hl
          · intro hmem
            rcases List.mem_cons.mp hmem with he | hmem
            · exact hc he.symm
            · exact ih l0 (h ▸ List.mem_cons_self _ _) hmem
          · exact ih l (h ▸ List.mem_cons_of_mem _ hl)

theorem splitLines_single (l : List Char) (hnl : '\n' ∉ l) :
    splitLines l = [l] := by
  induction l with
  | nil => rfl
  | cons c cs ih =>
      rw [splitLines]
      have hc : c ≠ '\n' := by
        intro he
        exact hnl (he ▸ List.mem_cons_self _ _)
      rw [if_neg hc]
      rw [ih (fun hm => hnl (List.mem_cons_of_mem _ hm))]

theorem splitLines_append (a rest : List Char) (hnl : '\n' ∉ a) :
    splitLines (a ++ '\n' :: rest) = a :: splitLines rest := by
  induction a with
  | nil => simp [splitLines]
  | cons c cs ih =>
      have hc : c ≠ '\n' := by
        intro he
        exact hnl (he ▸ List.mem_cons_self _ _)
      rw [List.cons_append, splitLines, if_neg hc,
        ih (fun hm => hnl (List.mem_cons_of_mem _ hm))]

theorem splitLines_joinLines :
    ∀ (L : List (List Char)), (∀ l ∈ L, '\n' ∉ l) → L ≠ [] →
      splitLines (joinLines L) = L
  | [], _, hne => absurd rfl hne
  | [l], hnl, _ => by
      rw [joinLines, splitLines_single l (hnl l (by simp))]
  | a :: b :: L, hnl, _ => by
      rw [joinLines, splitLines_append a _ (hnl a (by simp))]
      rw [splitLines_joinLines (b :: L) (fun l hl => hnl l (List.mem_cons_of_mem _ hl))
        (List.cons_ne_nil b L)]
      exact fun h => absurd h (List.cons_ne_nil b L)

/- ### C9: hidden/visible message filtering -/

/-- C9: `getMessages(id, false)` equals `getMessages(id, true)` filtered to
records whose `forDisplay` is not `false`, for every log content; in
particular both preserve the append (line) order, the former being the
order-preserving filtering of the latter. -/
theorem claim9_getMessages_filter (content : List Char) :
    getMessages content false =
      (getMessages content true).map (fun msgs => msgs.filter forDisplayNotFalse) ∧
    (∀ msgs msgs', getMessages content true = .ok msgs →
      getMessages content false = .ok msgs' → msgs'.Sublist msgs) := by
  constructor
  · unfold getMessages
    rcases h : parseAll ((splitLines content).filter (fun l => !(jsTrim l).isEmpty)) with
      _ | msgs
    · rfl
    · rfl
  · intro msgs msgs' htrue hfalse
    unfold getMessages at htrue hfalse
    rcases h : parseAll ((splitLines content).filter (fun l => !(jsTrim l).isEmpty)) with
      _ | parsed
    · rw [h] at htrue
      exact absurd htrue (by simp)
    · rw [h] at htrue hfalse
      simp at htrue hfalse
      rw [← htrue, ← hfalse]
      exact List.filter_sublist _

/-- C9 witness: the filtering equation evaluated on a concrete two-record log,
one record hidden with `forDisplay: false`. -/
theorem claim9_witness :
    getMessages (String.toList
        "\x7b\"id\":\"1\"\x7d\n\x7b\"id\":\"2\",\"forDisplay\":false\x7d\n") false =
      .ok [Json.obj [("id", Json.str "1")]] ∧
    getMessages (String.toList
        "\x7b\"id\":\"1\"\x7d\n\x7b\"id\":\"2\",\"forDisplay\":false\x7d\n") true =
      .ok [Json.obj [("id", Json.str "1")],
        Json.obj [("id", Json.str "2"), ("forDisplay", Json.bool false)]] ∧
    [Json.obj [("id", Json.str "1")]].Sublist
      [Json.obj [("id", Json.str "1")],
        Json.obj [("id", Json.str "2"), ("forDisplay", Json.bool false)]] :=
  ⟨rfl, rfl,
    (claim9_getMessages_filter (String.toList
        "\x7b\"id\":\"1\"\x7d\n\x7b\"id\":\"2\",\"forDisplay\":false\x7d\n")).2
      _ _ rfl rfl⟩

/- ### C4: partial trailing line -/

/-- C4 counterexample: a log whose file content ends in the non-whitespace
partial line `{"id":"2` (a truncated record).  `getMessages` does not treat
the partial line as absent: the `JSON.parse` of that line throws, so the call
fails instead of returning the one message of the complete first line (which
parses fine on its own). -/
theorem claim4_counterexample :
    getMessages (String.toList "\x7b\"id\":\"1\"\x7d\n\x7b\"id\":\"2") true =
      .error "JSON.parse" ∧
    ¬ (∃ msgs, getMessages
        (String.toList "\x7b\"id\":\"1\"\x7d\n\x7b\"id\":\"2") true = .ok msgs) ∧
    jsonParse (String.toList "\x7b\"id\":\"1\"\x7d") =
      some (Json.obj [("id", Json.str "1")]) :=
  ⟨rfl, by rintro ⟨msgs, h⟩; exact Except.noConfusion h, rfl⟩

/-- C4 amended: only an *empty or whitespace-only* trailing fragment is
treated as absent: if the content splits into lines `L` plus a final fragment
that trims to nothing, `getMessages` returns exactly what it returns on the
log truncated at the last newline.  (A non-whitespace partial trailing line
instead makes `getMessages` fail; see the counterexample.) -/
theorem claim4_amended (c : List Char) (L : List (List Char)) (t : List Char)
    (b : Bool) (hsplit : splitLines c = L ++ [t]) (ht : jsTrim t = []) :
    getMessages c b = getMessages (joinLines L) b := by
  have hpt : (!(jsTrim t).isEmpty) = false := by rw [ht]; rfl
  rcases L with _ | ⟨a, L'⟩
  · unfold getMessages
    rw [hsplit]
    simp only [List.nil_append, List.filter_cons, hpt, List.filter_nil,
      joinLines, splitLines]
    rfl
  · have hnl : ∀ l ∈ a :: L', '\n' ∉ l := fun l hl =>
      splitLines_no_newline c l (hsplit ▸ List.mem_append_left _ hl)
    unfold getMessages
    rw [hsplit, splitLines_joinLines (a :: L') hnl (List.cons_ne_nil _ _),
      List.filter_append]
    simp [hpt]

/-- C4 witness: a log of two complete records followed by a trailing newline
(so the final fragment is empty); `getMessages` agrees with the log truncated
at the last newline. -/
theorem claim4_witness :
    getMessages (String.toList "\x7b\"id\":\"1\"\x7d\n\x7b\"id\":\"2\"\x7d\n") true =
      getMessages (joinLines [String.toList "\x7b\"id\":\"1\"\x7d",
        String.toList "\x7b\"id\":\"2\"\x7d"]) true :=
  claim4_amended (String.toList "\x7b\"id\":\"1\"\x7d\n\x7b\"id\":\"2\"\x7d\n")
    [String.toList "\x7b\"id\":\"1\"\x7d", String.toList "\x7b\"id\":\"2\"\x7d"]
    [] true rfl rfl

/- ## Shared agent data types (shared/src/types.ts, @google/genai parts) -/

/-- `@gacua/shared` `FunctionCall` (strict: id, name, args). -/
structure SFunctionCall where
  id : String
  name : String
  args : Json

/-- The `response` of a function response: `{output} | {error}`. -/
inductive ToolResponse where
  | output (s : String)
  | error (s : String)

/-- The `@google/genai` `GPart` shapes produced and consumed by the agent. -/
inductive GPart where
  | text (s : String)
  | thoughtText (s : String)
  | functionCall (fc : SFunctionCall)
  | functionResponse (id : String) (name : String) (response : ToolResponse)
  | inlineImage (data : String)

/-- A part of an `AgentPersistMessage`: a genai part or an image file name. -/
inductive PersistPart where
  | part (p : GPart)
  | imageFileName (n : String)

/-- Message roles of `@gacua/shared`. -/
inductive Role where
  | user
  | model
  | tool
  | workflow
  | grounding_model
deriving DecidableEq

/-- `SessionStatus` of `@gacua/shared`. -/
inductive SessionStatus where
  | running
  | pending
  | stagnant
  | error
deriving DecidableEq

/-- `ToolReviewChoice` of `@gacua/shared`. -/
inductive ToolReviewChoice where
  | accept_once
  | accept_session
  | reject_once
deriving DecidableEq

def ToolReviewChoice.isRejectOnce : ToolReviewChoice → Bool
  | .reject_once => true
  | _ => false

/-- A tool-review attachment: request or response. -/
inductive ToolReview where
  | request (reviewId : String) (functionCall originalFunctionCall : SFunctionCall)
  | response (reviewId : String) (choice : ToolReviewChoice)

/-- `AgentPersistMessage` of `agent.ts` (wait.ts). -/
structure AgentPersistMessage where
  role : Role
  parts : List PersistPart
  toolReview : Option ToolReview := none
  forDisplay : Option Bool := none

/- ## Tool catalog (tool-computer/index.ts, groundable-tool.ts) -/

/-- Modelled from the spec: `SchemaValidator.validate` of
`@gacua/gemini-cli-core` (not part of this repository) applied to
`functionDeclaration.parameters`.  The five computer tools populate
`parametersJsonSchema` but leave `parameters` absent, and the validator
reports no error for an absent schema, so the base validation passes. -/
def schemaValidate (_args : Json) : Option String := none

/-- `BaseGroundableTool.validateImageElementPair`: after schema validation,
`image_id` and `element_description` must be both present or both absent.
JS `typeof args !== 'object' || args === null` rejects primitives and null;
arrays pass the typeof test and their property reads yield `undefined`. -/
def validateImageElementPair (args : Json) : Option String :=
  match schemaValidate args with
  | some e => some e
  | none =>
    match args with
    | .obj fs =>
      let imageId := fs.reverse.lookup "image_id"
      let elemDesc := fs.reverse.lookup "element_description"
      if imageId.isNone ∧ elemDesc.isSome then
        some "When element_description is provided, image_id must be provided"
      else if imageId.isSome ∧ elemDesc.isNone then
        some "When image_id is provided, element_description must be provided"
      else none
    | .arr _ => none
    | _ => some "Arguments must be an object"

/-- A registered computer tool: its declaration name and its `validate`.
(The `parametersJsonSchema` payloads are never read by the embedded control
flow — the base `validate` reads the absent `parameters` field — so they are
not carried here.) -/
structure ComputerTool where
  declName : String
  validate : Json → Option String

/-- The tool registry of `tool-computer/index.ts`: click, type, drag_and_drop,
key, wait, keyed by declaration name, in construction order.  `ComputerType`
overrides `validate` with the image/element pair check; the others use the
base schema validation.  (`ComputerScroll` exists in scroll.ts but is not in
this list.) -/
def computerTools : List (String × ComputerTool) :=
  [("computer_click", ⟨"computer_click", schemaValidate⟩),
   ("computer_type", ⟨"computer_type", validateImageElementPair⟩),
   ("computer_drag_and_drop", ⟨"computer_drag_and_drop", schemaValidate⟩),
   ("computer_key", ⟨"computer_key", schemaValidate⟩),
   ("computer_wait", ⟨"computer_wait", schemaValidate⟩)]

/-- `getValidComputerTool`: unknown names and failed validations return an
error string, otherwise the tool. -/
def getValidComputerTool (name : String) (args : Json) : Except String ComputerTool :=
  match computerTools.lookup name with
  | none => .error ("Tool does not exist: " ++ name)
  | some tool =>
    match tool.validate args with
    | some err => .error err
    | none => .ok tool

/-- `getComputerFunctionDeclarations`, projected to the declaration names. -/
def getComputerFunctionDeclarations : List String :=
  computerTools.map (fun p => p.2.declName)

/- ## Grounding response validation (wait.ts detectElement) -/

/-- JS `parseInt(String(coord))` on a JSON value, as an optional integer
(`none` = NaN).  For numbers this is truncation toward zero of
`mant · 10 ^ exp10`, which matches `parseInt` of the decimal string for the
magnitudes produced by the grounding model (JS switches to exponential
notation only below 1e-6 or at/above 1e21, which is not modelled).  For
strings it parses an optional sign and leading digits.  `String()` of
booleans, null, arrays and objects yields no leading digits in the shapes
relevant here and is modelled as NaN. -/
def pow10Int : Nat → Int
  | 0 => 1
  | n + 1 => 10 * pow10Int n

def jsParseIntOfJson : Json → Option Int
  | .num mant exp10 =>
    if 0 ≤ exp10 then some (mant * pow10Int exp10.toNat)
    else some (Int.tdiv mant (pow10Int (-exp10).toNat))
  | .str s =>
    let cs := skipWs s.toList
    let signRest : Bool × List Char :=
      match cs with
      | '-' :: rest => (true, rest)
      | '+' :: rest => (false, rest)
      | _ => (false, cs)
    match parseDigits signRest.2 with
    | ([], _) => none
    | (ds, _) =>
      some (if signRest.1 then -(digitsToNat ds : Int) else (digitsToNat ds : Int))
  | _ => none

/-- The `box_2d` extraction of `detectElement`:
`Array.isArray(data) ? data[0].box_2d : data.box_2d`.  Reading a property of
`undefined` (empty array) or `null` throws a TypeError. -/
def box2dOf : Json → Except String (Option Json)
  | .arr [] => .error "TypeError: cannot read properties of undefined"
  | .arr (x :: _) =>
    match x with
    | .obj fs => .ok (fs.reverse.lookup "box_2d")
    | .null => .error "TypeError: cannot read properties of null"
    | _ => .ok none
  | .null => .error "TypeError: cannot read properties of null"
  | .obj fs => .ok (fs.reverse.lookup "box_2d")
  | _ => .ok none

/-- One coordinate check of `detectElement`: `parseInt(String(coord))`, then
`isNaN(intCoord) || intCoord < 0 || intCoord > 1000` throws. -/
def checkCoord (j : Json) : Except String Int :=
  match jsParseIntOfJson j with
  | none => .error "Invalid coordinate value"
  | some v =>
    if v < 0 ∨ 1000 < v then .error "Invalid coordinate value"
    else .ok v

/-- The validation chain of `detectElement` (wait.ts lines 194-232) applied to
the parsed grounding response: extract `box_2d`, require an array of exactly
four elements, parse each coordinate with `parseInt` into [0, 1000], and
require `ymin < ymax` and `xmin < xmax`.  Error strings abbreviate the
source's interpolated messages. -/
def detectElementValidate (j : Json) : Except String Box :=
  match box2dOf j with
  | .error e => .error e
  | .ok b2 =>
    match b2 with
    | some (.arr [j1, j2, j3, j4]) =>
      match checkCoord j1 with
      | .error e => .error e
      | .ok ymin =>
        match checkCoord j2 with
        | .error e => .error e
        | .ok xmin =>
          match checkCoord j3 with
          | .error e => .error e
          | .ok ymax =>
            match checkCoord j4 with
            | .error e => .error e
            | .ok xmax =>
              if ymin ≥ ymax ∨ xmin ≥ xmax then
                .error "Invalid bounding box"
              else
                .ok ⟨ymin.toNat, xmin.toNat, ymax.toNat, xmax.toNat⟩
    | _ => .error "Invalid box_2d format: expected array of 4 numbers"

/- ## Agent loop (wait.ts runAgent) -/

/-- One part of a streamed `GenerateContentResponse` candidate: its text and
thought flag (`part.text` falsy iff empty). -/
structure ChunkPart where
  text : String
  thought : Bool

/-- A function call as delivered by the stream: the id may be absent. -/
structure RawFunctionCall where
  id : Option String
  name : String
  args : Json

/-- One streamed `GenerateContentResponse`: candidate parts (empty = no
candidate/content) and `resp.functionCalls`. -/
structure StreamChunk where
  parts : List ChunkPart
  functionCalls : List RawFunctionCall

/-- The `{text} | {thought}` record returned by `getResponseText`. -/
inductive TextPart where
  | thought (s : String)
  | plain (s : String)

/-- `getResponseText` (wait.ts): merge all part texts; if any part is
thought-flagged the whole merged text counts as thought. -/
def getResponseText (c : StreamChunk) : Option TextPart :=
  match c.parts with
  | [] => none
  | ps =>
    let merged := ps.foldl (fun acc p => acc ++ p.text) ""
    if ps.any (fun p => p.thought) then some (.thought merged)
    else some (.plain merged)

/-- Roles of the LLM-facing history (`recoverHistory` maps everything that is
not `model` to `user`). -/
inductive CRole where
  | user
  | model
deriving DecidableEq

/-- An entry of the LLM-facing history (`@google/genai` `Content`). -/
structure Content where
  role : CRole
  parts : List GPart

/-- `ContextManager.appendContent`: merge into the last entry when the roles
match, else push. -/
def appendContent (history : List Content) (c : Content) : List Content :=
  match history.getLast? with
  | some lastMsg =>
    if lastMsg.role = c.role then
      history.dropLast ++ [⟨lastMsg.role, lastMsg.parts ++ c.parts⟩]
    else history ++ [c]
  | none => history ++ [c]

/-- `ContextManager.mergeAdjacentMessages` (constructor): left-to-right merge
of adjacent same-role messages. -/
def mergeAdjacentMessages : List Content → List Content
  | [] => []
  | [m] => [m]
  | m1 :: m2 :: ms =>
    if m1.role = m2.role then mergeAdjacentMessages (⟨m1.role, m1.parts ++ m2.parts⟩ :: ms)
    else m1 :: mergeAdjacentMessages (m2 :: ms)
termination_by l => l.length

/-- Observable actions of a run: persisted messages, status transitions,
streamed deltas, the screenshot RPC, planning-LLM calls (tagged with the
extra prompt of the retry), tool executions, and the model content appended
to the in-memory history after a plan. -/
inductive AgentEvent where
  | persist (m : AgentPersistMessage)
  | status (st : SessionStatus) (msg : String)
  | stream (role : Role) (tp : TextPart)
  | screenshot
  | planLLM (extra : Option String)
  | execTool (fc : SFunctionCall)
  | appendModel (parts : List GPart)

/-- Outcome of `groundableTool.ground(...)`: an error string, or a grounded
call (`value()` name and args) together with its description parts. -/
inductive GroundOutcome where
  | failure (msg : String)
  | grounded (callName : String) (callArgs : Json) (desc : List PersistPart)

/-- The environment of a run: the successive planning streams, the generator
for missing function-call ids, the tool runtime, the grounding pipeline, and
the per-turn screenshot data.  All nondeterminism of the source (LLM, RPCs,
clock) is supplied here. -/
structure AgentOracle where
  planStream : Nat → List StreamChunk
  genId : Nat → String
  execTool : SFunctionCall → ToolResponse
  ground : SFunctionCall → GroundOutcome
  screenshotLabel : Nat → String
  screenshotFile : Nat → String
  croppedFiles : Nat → List String
  croppedParts : Nat → List GPart

/-- `forgeToolResponse` (wait.ts): throws when the (grounded) call id is
falsy; the response carries the original call's id and name when present. -/
def forgeToolResponse (response : ToolResponse) (functionCall : SFunctionCall)
    (originalFunctionCall : Option SFunctionCall) : Except String GPart :=
  if functionCall.id = "" then
    .error "Function call id is required in tool response"
  else
    .ok (.functionResponse
      ((originalFunctionCall.map (fun o => o.id)).getD functionCall.id)
      ((originalFunctionCall.map (fun o => o.name)).getD functionCall.name)
      response)

/-- Accumulator of `processStreamResponse`'s stream loop. -/
structure ChunkAcc where
  thought : String
  output : String
  functionCalls : List SFunctionCall
  events : List AgentEvent
  idCtr : Nat

/-- One iteration of the `for await` loop of `processStreamResponse`: emit the
stream delta, accumulate thought/output, and normalize function-call ids
(generating one when absent). -/
def processChunk (genId : Nat → String) (role : Role) (acc : ChunkAcc)
    (c : StreamChunk) : ChunkAcc :=
  let acc1 :=
    match getResponseText c with
    | none => acc
    | some tp =>
      { acc with
        events := acc.events ++ [AgentEvent.stream role tp],
        thought := acc.thought ++ (match tp with | .thought s => s | .plain _ => ""),
        output := acc.output ++ (match tp with | .plain s => s | .thought _ => "") }
  let idsNormalized := c.functionCalls.foldl
    (fun (p : List SFunctionCall × Nat) rfc =>
      match rfc.id with
      | some i => (p.1 ++ [⟨i, rfc.name, rfc.args⟩], p.2)
      | none => (p.1 ++ [⟨genId p.2, rfc.name, rfc.args⟩], p.2 + 1))
    ([], acc1.idCtr)
  { acc1 with
    functionCalls := acc1.functionCalls ++ idsNormalized.1,
    idCtr := idsNormalized.2 }

/-- `processStreamResponse` (wait.ts): fold the stream, then persist a message
only when there is actual content (output text or function calls), with the
thought block first, then the text block, then one block per call. -/
def processStreamResponse (genId : Nat → String) (role : Role)
    (chunks : List StreamChunk) (forDisplay : Option Bool) (idCtr : Nat) :
    ChunkAcc :=
  let acc := chunks.foldl (processChunk genId role) ⟨"", "", [], [], idCtr⟩
  if acc.output ≠ "" ∨ acc.functionCalls.isEmpty = false then
    { acc with
      events := acc.events ++ [AgentEvent.persist {
        role := role,
        parts :=
          (if acc.thought ≠ "" then [PersistPart.part (GPart.thoughtText acc.thought)] else []) ++
          (if acc.output ≠ "" then [PersistPart.part (GPart.text acc.output)] else []) ++
          acc.functionCalls.map (fun fc => PersistPart.part (GPart.functionCall fc)),
        toolReview := none,
        forDisplay := forDisplay }] }
  else acc

/-- The mutable turn state threaded through planning. -/
structure PlanState where
  currentParts : List GPart
  context : List Content
  planIdx : Nat
  idCtr : Nat

/-- Result of one `planNextStep` call. -/
structure PlanResult where
  events : List AgentEvent
  st : PlanState
  functionCalls : List SFunctionCall
  success : Bool

/-- `planNextStep` (wait.ts): push the optional extra prompt onto the current
parts (mutating them), append them to the context as a user turn, stream the
plan, and on non-empty output/calls append the model content (thought
omitted) to the context. -/
def planNextStep (O : AgentOracle) (st : PlanState) (extra : Option String) :
    PlanResult :=
  let userParts := st.currentParts ++
    (match extra with | some e => [GPart.text e] | none => [])
  let context1 := appendContent st.context ⟨.user, userParts⟩
  let acc := processStreamResponse O.genId .model (O.planStream st.planIdx) none st.idCtr
  if acc.output ≠ "" ∨ acc.functionCalls.isEmpty = false then
    let modelParts :=
      (if acc.output ≠ "" then [GPart.text acc.output] else []) ++
      acc.functionCalls.map GPart.functionCall
    { events := AgentEvent.planLLM extra :: acc.events ++ [AgentEvent.appendModel modelParts],
      st := { currentParts := userParts,
              context := appendContent context1 ⟨.model, modelParts⟩,
              planIdx := st.planIdx + 1, idCtr := acc.idCtr },
      functionCalls := acc.functionCalls,
      success := true }
  else
    { events := AgentEvent.planLLM extra :: acc.events,
      st := { currentParts := userParts, context := context1,
              planIdx := st.planIdx + 1, idCtr := acc.idCtr },
      functionCalls := [],
      success := false }

/-- The per-turn function-call processing state (step 4 of the loop body). -/
structure ProcState where
  events : List AgentEvent
  toolResponseParts : List GPart
  pending : Bool
  reviewMsgs : List AgentPersistMessage
  delayed : List (SFunctionCall × SFunctionCall)
  thrown : Option String

/-- JS `name.startsWith('computer_')`, via character lists so that concrete
evaluations reduce definitionally. -/
def startsWithComputer (s : String) : Bool :=
  List.isPrefixOf "computer_".toList s.toList

/-- Processing of one function call of the turn (wait.ts lines 593-704):
computer calls are validated, grounded, and either delayed (auto-accept) or
marked pending; failures push forged error responses and continue; other
calls execute directly.  A raised exception (`thrown`) skips the rest. -/
def processOneCall (O : AgentOracle) (allowed : List String) (ps : ProcState)
    (fc : SFunctionCall) : ProcState :=
  if ps.thrown.isSome then ps
  else
    let original := fc
    if startsWithComputer fc.name then
      match getValidComputerTool original.name original.args with
      | .error err =>
        match forgeToolResponse (.error err) fc (some original) with
        | .ok part => { ps with toolResponseParts := ps.toolResponseParts ++ [part] }
        | .error m => { ps with thrown := some m }
      | .ok _tool =>
        match O.ground original with
        | .failure msg =>
          match forgeToolResponse (.error ("Error during grounding: " ++ msg)) fc
              (some original) with
          | .ok part => { ps with toolResponseParts := ps.toolResponseParts ++ [part] }
          | .error m => { ps with thrown := some m }
        | .grounded callName callArgs desc =>
          let functionCall : SFunctionCall := ⟨original.id, callName, callArgs⟩
          let reviewMsg : AgentPersistMessage :=
            { role := .workflow, parts := desc,
              toolReview := some (.request original.id functionCall original),
              forDisplay := some true }
          if allowed.contains original.name then
            { ps with
              reviewMsgs := ps.reviewMsgs ++ [reviewMsg,
                { role := .user, parts := [],
                  toolReview := some (.response original.id .accept_session),
                  forDisplay := some true }],
              delayed := ps.delayed ++ [(functionCall, original)] }
          else
            { ps with reviewMsgs := ps.reviewMsgs ++ [reviewMsg], pending := true }
    else
      match forgeToolResponse (O.execTool fc) fc (some original) with
      | .ok part =>
        { ps with
          events := ps.events ++ [AgentEvent.execTool fc]
          toolResponseParts := ps.toolResponseParts ++ [part] }
      | .error m =>
        { ps with events := ps.events ++ [AgentEvent.execTool fc], thrown := some m }

/-- Execution of the delayed auto-accepted calls (step 3 of turn finalize);
a raised exception aborts the remainder. -/
def execDelayed (O : AgentOracle) :
    List (SFunctionCall × SFunctionCall) →
      List AgentEvent × List GPart × Option String
  | [] => ([], [], none)
  | (fcall, orig) :: rest =>
    match forgeToolResponse (O.execTool fcall) fcall (some orig) with
    | .error m => ([AgentEvent.execTool fcall], [], some m)
    | .ok part =>
      let r := execDelayed O rest
      (AgentEvent.execTool fcall :: r.1, part :: r.2.1, r.2.2)

/-- The planning phase of one turn: a first `planNextStep`, the `"continue"`
retry on an empty result, and — when the retry is also empty — the `error`
status transition.  Mirrors wait.ts lines 568-576: there is no early exit, so
the turn continues with an empty call list. -/
def planPhase (O : AgentOracle) (st1 : PlanState) :
    List AgentEvent × PlanState × List SFunctionCall :=
  let r1 := planNextStep O st1 none
  if r1.success then (r1.events, r1.st, r1.functionCalls)
  else
    let r2 := planNextStep O r1.st (some "continue")
    if r2.success then (r1.events ++ r2.events, r2.st, r2.functionCalls)
    else
      (r1.events ++ r2.events ++
        [AgentEvent.status .error "Model returned empty response even after retry."],
        r2.st, [])

/-- The two `workflow` screenshot messages and the screenshot RPC of step 2. -/
def turnPrefixEvents (O : AgentOracle) (turn : Nat) : List AgentEvent :=
  [AgentEvent.status .running ("Turn " ++ toString (turn + 1)), AgentEvent.screenshot,
    AgentEvent.persist
      { role := .workflow
        parts := [PersistPart.part (GPart.text (O.screenshotLabel turn)),
          PersistPart.imageFileName (O.screenshotFile turn)]
        forDisplay := some true },
    AgentEvent.persist
      { role := .workflow
        parts := PersistPart.part (GPart.text (O.screenshotLabel turn)) ::
          (O.croppedFiles turn).map PersistPart.imageFileName
        forDisplay := some false }]

/-- The `while (true)` loop of `runAgent`, with fuel bounding the number of
turns (the source loop is unbounded; every theorem below concerns runs that
stop within the supplied fuel).  Exceptions raised inside the loop are caught
by the surrounding try/catch, which emits a final `error` status. -/
def runTurns (O : AgentOracle) (allowed : List String) :
    Nat → PlanState → Nat → List AgentEvent
  | 0, _, _ => []
  | fuel + 1, st, turn =>
    let st1 : PlanState := { st with
      currentParts := st.currentParts ++
        GPart.text (O.screenshotLabel turn) :: O.croppedParts turn }
    let plan := planPhase O st1
    let evPre := turnPrefixEvents O turn ++ plan.1
    let fcs := plan.2.2
    if fcs.isEmpty then
      evPre ++ [AgentEvent.status .stagnant "No more tool calls from model."]
    else
      let ps := fcs.foldl (processOneCall O allowed) ⟨[], [], false, [], [], none⟩
      match ps.thrown with
      | some m => evPre ++ ps.events ++ [AgentEvent.status .error m]
      | none =>
        let evResp :=
          if ps.toolResponseParts.isEmpty then []
          else [AgentEvent.persist
            { role := .tool
              parts := ps.toolResponseParts.map PersistPart.part }]
        let evReviews := ps.reviewMsgs.map AgentEvent.persist
        if ps.pending then
          evPre ++ ps.events ++ evResp ++ evReviews ++
            [AgentEvent.status .pending "Tool call pending."]
        else
          let d := execDelayed O ps.delayed
          match d.2.2 with
          | some m => evPre ++ ps.events ++ evResp ++ evReviews ++ d.1 ++
              [AgentEvent.status .error m]
          | none =>
            evPre ++ ps.events ++ evResp ++ evReviews ++ d.1 ++
              [AgentEvent.persist { role := .tool, parts := d.2.1.map PersistPart.part }] ++
              runTurns O allowed fuel
                { currentParts := ps.toolResponseParts ++ d.2.1,
                  context := plan.2.1.context,
                  planIdx := plan.2.1.planIdx,
                  idCtr := plan.2.1.idCtr }
                (turn + 1)

/-- A resolved tool-review decision (the agent input after review). -/
structure Decision where
  functionCall : SFunctionCall
  originalFunctionCall : SFunctionCall
  response : ToolReviewChoice

/-- `AgentInput`: user text or resolved review decisions. -/
inductive AgentInput where
  | text (s : String)
  | decisions (ds : List Decision)

/-- The input-seeding phase for review decisions (wait.ts lines 379-405):
rejections persist a hidden forged `{error: "Rejected by user"}` response;
accepted calls execute and persist their results.  A forge exception aborts
the remainder (it escapes `runAgent`, which has no try/catch around this
phase). -/
def seedDecisions (O : AgentOracle) :
    List Decision → List AgentEvent × List GPart × Option String
  | [] => ([], [], none)
  | d :: rest =>
    match d.response with
    | .reject_once =>
      match forgeToolResponse (.error "Rejected by user") d.functionCall
          (some d.originalFunctionCall) with
      | .error m => ([], [], some m)
      | .ok part =>
        let r := seedDecisions O rest
        (AgentEvent.persist
            { role := .tool
              parts := [PersistPart.part part]
              forDisplay := some false } :: r.1,
          part :: r.2.1, r.2.2)
    | _ =>
      match forgeToolResponse (O.execTool d.functionCall) d.functionCall
          (some d.originalFunctionCall) with
      | .error m => ([AgentEvent.execTool d.functionCall], [], some m)
      | .ok part =>
        let r := seedDecisions O rest
        (AgentEvent.execTool d.functionCall ::
            AgentEvent.persist { role := .tool, parts := [PersistPart.part part] } :: r.1,
          part :: r.2.1, r.2.2)

/-- `runAgent` (wait.ts), as the list of observable events of the run.  Text
input persists a user message and starts the turn loop; decision input seeds
tool responses first and stops with a `stagnant` status when every decision
was a rejection. -/
def runAgent (O : AgentOracle) (historyMessages : List Content)
    (input : AgentInput) (allowed : List String) (fuel : Nat) :
    List AgentEvent :=
  match input with
  | .text t =>
    AgentEvent.persist { role := .user, parts := [PersistPart.part (GPart.text t)] } ::
      runTurns O allowed fuel
        ⟨[GPart.text t], mergeAdjacentMessages historyMessages, 0, 0⟩ 0
  | .decisions ds =>
    let r := seedDecisions O ds
    match r.2.2 with
    | some _ => r.1
    | none =>
      if ds.all (fun d => d.response.isRejectOnce) then
        r.1 ++ [AgentEvent.status .stagnant "User rejected all tool calls."]
      else
        r.1 ++ runTurns O allowed fuel
          ⟨r.2.1, mergeAdjacentMessages historyMessages, 0, 0⟩ 0

/-- The status transitions of a trace, in order. -/
def statusEvents : List AgentEvent → List (SessionStatus × String)
  | [] => []
  | .status st m :: evs => (st, m) :: statusEvents evs
  | _ :: evs => statusEvents evs

/-- The tool executions of a trace, in order. -/
def execEvents : List AgentEvent → List SFunctionCall
  | [] => []
  | .execTool fc :: evs => fc :: execEvents evs
  | _ :: evs => execEvents evs

/-- Whether a trace contains a screenshot or planning-LLM call. -/
def hasScreenshotOrPlan : List AgentEvent → Bool
  | [] => false
  | .screenshot :: _ => true
  | .planLLM _ :: _ => true
  | _ :: evs => hasScreenshotOrPlan evs

/- ### C1: status transitions after an empty retry -/

/-- A minimal concrete environment: the planning LLM always returns an empty
stream; grounding always fails; tools return empty output. -/
def emptyOracle : AgentOracle :=
  { planStream := fun _ => []
    genId := fun n => "gen-" ++ toString n
    execTool := fun _ => .output ""
    ground := fun _ => .failure "no ground"
    screenshotLabel := fun _ => "Screenshot at t:"
    screenshotFile := fun _ => "shot.png"
    croppedFiles := fun _ => ["crop0.png"]
    croppedParts := fun _ => [.inlineImage "img0"] }

/-- C1: with a user text input and both the plan and its `"continue"` retry
empty, the run emits `error` "Model returned empty response even after
retry." but then falls through to the no-function-calls branch, which emits a
final `stagnant` "No more tool calls from model." — the error is not the last
status transition of the run, contradicting the claim (and the spec's "and
stop"); the code lacks a break after the error status. -/
theorem claim1_status_trace :
    statusEvents (runAgent emptyOracle [] (.text "do the task") [] 1) =
      [(.running, "Turn 1"),
       (.error, "Model returned empty response even after retry."),
       (.stagnant, "No more tool calls from model.")] := rfl

/- ### C6: all decisions rejected -/

/-- The forged hidden tool message for one rejected decision. -/
def rejectPersistEvent (d : Decision) : AgentEvent :=
  AgentEvent.persist
    { role := .tool
      parts := [PersistPart.part (GPart.functionResponse
        d.originalFunctionCall.id d.originalFunctionCall.name
        (.error "Rejected by user"))]
      forDisplay := some false }

theorem seedDecisions_reject (O : AgentOracle) (ds : List Decision)
    (hall : ∀ d ∈ ds, d.response = .reject_once)
    (hids : ∀ d ∈ ds, d.functionCall.id ≠ "") :
    seedDecisions O ds =
      (ds.map rejectPersistEvent,
        ds.map (fun d => GPart.functionResponse d.originalFunctionCall.id
          d.originalFunctionCall.name (.error "Rejected by user")),
        none) := by
  induction ds with
  | nil => rfl
  | cons d rest ih =>
      have hd := hall d (List.mem_cons_self _ _)
      have hid := hids d (List.mem_cons_self _ _)
      rw [seedDecisions, hd]
      rw [forgeToolResponse, if_neg hid]
      rw [ih (fun x hx => hall x (List.mem_cons_of_mem _ hx))
        (fun x hx => hids x (List.mem_cons_of_mem _ hx))]
      simp [rejectPersistEvent]

theorem hasScreenshotOrPlan_persist_status (L : List AgentEvent)
    (hL : ∀ e ∈ L, ∃ m, e = AgentEvent.persist m) (st : SessionStatus)
    (msg : String) :
    hasScreenshotOrPlan (L ++ [AgentEvent.status st msg]) = false := by
  induction L with
  | nil => rfl
  | cons e L ih =>
      obtain ⟨m, rfl⟩ := hL e (List.mem_cons_self _ _)
      rw [List.cons_append, hasScreenshotOrPlan]
      · exact ih (fun x hx => hL x (List.mem_cons_of_mem _ hx))
      · intro heq; cases heq
      · intro extra heq; cases heq

theorem execEvents_persist_status (L : List AgentEvent)
    (hL : ∀ e ∈ L, ∃ m, e = AgentEvent.persist m) (st : SessionStatus)
    (msg : String) :
    execEvents (L ++ [AgentEvent.status st msg]) = [] := by
  induction L with
  | nil => rfl
  | cons e L ih =>
      obtain ⟨m, rfl⟩ := hL e (List.mem_cons_self _ _)
      rw [List.cons_append, execEvents]
      · exact ih (fun x hx => hL x (List.mem_cons_of_mem _ hx))
      · intro fc heq; cases heq

/-- C6: when every resolved decision is `reject_once` (with well-formed call
ids), the run persists, per decision and in order, one hidden tool message
whose single function response is `{error: "Rejected by user"}` under the
decision's original call id and name, then sets status `stagnant` with "User
rejected all tool calls." and returns — no screenshot is taken, no LLM call
is made and no tool is executed. -/
theorem claim6_reject_all (O : AgentOracle) (hist : List Content)
    (allowed : List String) (fuel : Nat) (ds : List Decision)
    (hall : ∀ d ∈ ds, d.response = .reject_once)
    (hids : ∀ d ∈ ds, d.functionCall.id ≠ "") :
    runAgent O hist (.decisions ds) allowed fuel =
      ds.map rejectPersistEvent ++
        [.status .stagnant "User rejected all tool calls."] ∧
    hasScreenshotOrPlan (runAgent O hist (.decisions ds) allowed fuel) = false ∧
    execEvents (runAgent O hist (.decisions ds) allowed fuel) = [] := by
  have hseed := seedDecisions_reject O ds hall hids
  have hallb : ds.all (fun d => d.response.isRejectOnce) = true := by
    rw [List.all_eq_true]
    intro d hd
    rw [hall d hd]
    rfl
  have htrace : runAgent O hist (.decisions ds) allowed fuel =
      ds.map rejectPersistEvent ++
        [.status .stagnant "User rejected all tool calls."] := by
    rw [runAgent, hseed]
    simp [hallb]
  refine ⟨htrace, ?_, ?_⟩
  · rw [htrace]
    exact hasScreenshotOrPlan_persist_status _
      (by intro e he
          rw [List.mem_map] at he
          obtain ⟨d, _, rfl⟩ := he
          exact ⟨_, rfl⟩) _ _
  · rw [htrace]
    exact execEvents_persist_status _
      (by intro e he
          rw [List.mem_map] at he
          obtain ⟨d, _, rfl⟩ := he
          exact ⟨_, rfl⟩) _ _

/-- C6 witness: a single rejected `computer_click` decision, evaluated. -/
theorem claim6_witness :
    runAgent emptyOracle []
        (.decisions [⟨⟨"c1", "computer_click", Json.null⟩,
          ⟨"c1", "computer_click", Json.null⟩, .reject_once⟩]) [] 1 =
      [rejectPersistEvent ⟨⟨"c1", "computer_click", Json.null⟩,
          ⟨"c1", "computer_click", Json.null⟩, .reject_once⟩,
        .status .stagnant "User rejected all tool calls."] :=
  (claim6_reject_all emptyOracle [] [] 1
    [⟨⟨"c1", "computer_click", Json.null⟩,
      ⟨"c1", "computer_click", Json.null⟩, .reject_once⟩]
    (by intro d hd
        rw [List.mem_singleton] at hd
        subst hd
        rfl)
    (by intro d hd
        rw [List.mem_singleton] at hd
        subst hd
        simp)).1

/- ### C8: the tool catalog -/

/-- C8: the catalog exposes exactly five declarations — click, type,
drag_and_drop, key, wait — and `computer_scroll` is rejected with "Tool does
not exist: computer_scroll" for every argument object. -/
theorem claim8_catalog :
    getComputerFunctionDeclarations =
      ["computer_click", "computer_type", "computer_drag_and_drop",
        "computer_key", "computer_wait"] ∧
    ∀ args : Json, getValidComputerTool "computer_scroll" args =
      .error "Tool does not exist: computer_scroll" :=
  ⟨rfl, fun _ => rfl⟩

/- ### C7: grounding validation and forged grounding errors -/

/-- A grounding response is accepted when its `box_2d` reads as an array of
exactly four elements whose `parseInt` truncations land in [0, 1000] with
truncated `ymin < ymax` and `xmin < xmax`. -/
def validBox2d (j : Json) : Prop :=
  ∃ j1 j2 j3 j4, ∃ v1 v2 v3 v4 : Int,
    box2dOf j = .ok (some (.arr [j1, j2, j3, j4])) ∧
    jsParseIntOfJson j1 = some v1 ∧ jsParseIntOfJson j2 = some v2 ∧
    jsParseIntOfJson j3 = some v3 ∧ jsParseIntOfJson j4 = some v4 ∧
    0 ≤ v1 ∧ v1 ≤ 1000 ∧ 0 ≤ v2 ∧ v2 ≤ 1000 ∧
    0 ≤ v3 ∧ v3 ≤ 1000 ∧ 0 ≤ v4 ∧ v4 ≤ 1000 ∧
    v1 < v3 ∧ v2 < v4

theorem checkCoord_ok (j : Json) (v : Int) :
    checkCoord j = .ok v ↔
      jsParseIntOfJson j = some v ∧ 0 ≤ v ∧ v ≤ 1000 := by
  unfold checkCoord
  rcases h : jsParseIntOfJson j with _ | w
  · simp
  · simp only [Option.some.injEq]
    constructor
    · intro hok
      split at hok
      · exact absurd hok (by simp)
      · next hcond =>
          have : w = v := by
            have := hok
            simp at this
            exact this
          subst this
          exact ⟨rfl, by omega⟩
    · rintro ⟨rfl, h0, h1⟩
      rw [if_neg (by omega)]

theorem detectElementValidate_ok (j : Json) (b : Box)
    (h : detectElementValidate j = .ok b) : validBox2d j := by
  unfold detectElementValidate at h
  split at h
  · simp at h
  next b2 heq =>
    split at h
    next j1 j2 j3 j4 =>
      split at h
      · simp at h
      next v1 hc1 =>
        split at h
        · simp at h
        next v2 hc2 =>
          split at h
          · simp at h
          next v3 hc3 =>
            split at h
            · simp at h
            next v4 hc4 =>
              split at h
              · simp at h
              next hcond =>
                obtain ⟨hp1, hb1, hb1'⟩ := (checkCoord_ok _ _).mp hc1
                obtain ⟨hp2, hb2, hb2'⟩ := (checkCoord_ok _ _).mp hc2
                obtain ⟨hp3, hb3, hb3'⟩ := (checkCoord_ok _ _).mp hc3
                obtain ⟨hp4, hb4, hb4'⟩ := (checkCoord_ok _ _).mp hc4
                exact ⟨j1, j2, j3, j4, v1, v2, v3, v4, heq,
                  hp1, hp2, hp3, hp4, hb1, hb1', hb2, hb2', hb3, hb3',
                  hb4, hb4', by omega, by omega⟩
    · simp at h

/-- C7 counterexample: the grounding response with
`box_2d = [10.5, 10, 20, 20]` (10.5 represented exactly as 105·10⁻¹) is not
an array of four *integers*, yet `detectElement` raises no error: `parseInt`
truncates 10.5 to 10 and the box is accepted. -/
theorem claim7_counterexample :
    detectElementValidate
        (Json.obj [("box_2d", Json.arr
          [Json.num 105 (-1), Json.num 10 0, Json.num 20 0, Json.num 20 0])]) =
      .ok ⟨10, 10, 20, 20⟩ ∧
    ¬ (∃ e, detectElementValidate
        (Json.obj [("box_2d", Json.arr
          [Json.num 105 (-1), Json.num 10 0, Json.num 20 0, Json.num 20 0])]) =
      .error e) :=
  ⟨rfl, by rintro ⟨e, h⟩; exact Except.noConfusion h⟩

/-- C7 amended: (a) `detectElement` raises a descriptive error for every
grounding response whose `box_2d` does not read as an array of exactly four
elements whose `parseInt` *truncations* land in [0, 1000] with truncated
`ymin < ymax` and `xmin < xmax` (non-integer numbers are truncated, not
rejected — see the counterexample); (b) a successful validation implies that
shape; and (c) whenever a computer tool's grounding fails, the agent pushes a
forged tool response whose error string is "Error during grounding: " ++ the
failure, and processing continues with the remaining calls of the turn. -/
theorem claim7_amended :
    (∀ j : Json, ¬ validBox2d j → ∃ e, detectElementValidate j = .error e) ∧
    (∀ (j : Json) (b : Box), detectElementValidate j = .ok b → validBox2d j) ∧
    (∀ (O : AgentOracle) (allowed : List String) (ps : ProcState)
        (fc : SFunctionCall) (msg : String) (tool : ComputerTool)
        (rest : List SFunctionCall),
      ps.thrown = none →
      startsWithComputer fc.name = true →
      getValidComputerTool fc.name fc.args = .ok tool →
      O.ground fc = .failure msg →
      fc.id ≠ "" →
      (fc :: rest).foldl (processOneCall O allowed) ps =
        rest.foldl (processOneCall O allowed)
          { ps with toolResponseParts := ps.toolResponseParts ++
              [GPart.functionResponse fc.id fc.name
                (.error ("Error during grounding: " ++ msg))] }) := by
  refine ⟨?_, detectElementValidate_ok, ?_⟩
  · intro j hval
    rcases h : detectElementValidate j with e | b
    · exact ⟨e, rfl⟩
    · exact absurd (detectElementValidate_ok j b h) hval
  · intro O allowed ps fc msg tool rest hthrown hname hvalid hground hid
    rw [List.foldl_cons]
    congr 1
    unfold processOneCall
    rw [hthrown]
    simp only [Option.isSome_none, Bool.false_eq_true, if_false]
    rw [hname]
    simp only [if_true]
    rw [hvalid, hground]
    simp [forgeToolResponse, hid]

/-- C7 witness: part (a) applied to the response `null` (whose property read
throws), and part (c) applied to a concrete failing `computer_wait` call. -/
theorem claim7_witness :
    (∃ e, detectElementValidate Json.null = .error e) ∧
    [(⟨"c1", "computer_wait", Json.null⟩ : SFunctionCall)].foldl
        (processOneCall emptyOracle []) ⟨[], [], false, [], [], none⟩ =
      [].foldl (processOneCall emptyOracle [])
        { events := ([] : List AgentEvent)
          toolResponseParts := [GPart.functionResponse "c1" "computer_wait"
            (.error ("Error during grounding: " ++ "no ground"))]
          pending := false
          reviewMsgs := []
          delayed := []
          thrown := none } :=
  ⟨claim7_amended.1 Json.null
      (by rintro ⟨j1, j2, j3, j4, v1, v2, v3, v4, hbox, _⟩; cases hbox),
    by
      have := claim7_amended.2.2 emptyOracle [] ⟨[], [], false, [], [], none⟩
        ⟨"c1", "computer_wait", Json.null⟩ "no ground"
        ⟨"computer_wait", schemaValidate⟩ [] rfl rfl rfl rfl (by simp)
      simpa using this⟩

/- ## History recovery (interface.ts) -/

/-- `PersistentMessageContentBlock` of `@gacua/shared`. -/
inductive ContentBlock where
  | thought (s : String)
  | text (s : String)
  | functionCall (fc : SFunctionCall)
  | functionResponse (id : String) (name : String) (response : ToolResponse)
  | image (src : String)

/-- A persisted message record (`PersistentMessage`, timestamp omitted). -/
structure PMessage where
  id : String
  role : Role
  content : List ContentBlock
  toolReview : Option ToolReview := none
  forDisplay : Option Bool := none

/-- `persistentContentBlockToPart` (interface.ts): note that a persisted
thought block is converted back into a part with the thought flag set —
it is not dropped.  `getImage` supplies the stored image bytes. -/
def persistentContentBlockToPart (sessionId : String)
    (getImage : String → String → String) : ContentBlock → Except String GPart
  | .thought s => .ok (.thoughtText s)
  | .text s => .ok (.text s)
  | .functionCall fc => .ok (.functionCall fc)
  | .functionResponse i n r => .ok (.functionResponse i n r)
  | .image src =>
    if src.take 11 = "internal://" then
      let comps := (src.drop 11).splitOn "/"
      if comps.headD "" ≠ sessionId then
        .error "Image session ID does not match"
      else
        .ok (.inlineImage (getImage (comps.headD "") (comps.getD 1 "")))
    else .error "Not implemented"

def blocksToParts (sessionId : String) (getImage : String → String → String) :
    List ContentBlock → Except String (List GPart)
  | [] => .ok []
  | b :: bs =>
    match persistentContentBlockToPart sessionId getImage b with
    | .error e => .error e
    | .ok p =>
      match blocksToParts sessionId getImage bs with
      | .error e => .error e
      | .ok ps => .ok (p :: ps)

def messagesToContents (sessionId : String)
    (getImage : String → String → String) :
    List PMessage → Except String (List Content)
  | [] => .ok []
  | m :: ms =>
    match blocksToParts sessionId getImage m.content with
    | .error e => .error e
    | .ok parts =>
      match messagesToContents sessionId getImage ms with
      | .error e => .error e
      | .ok cs =>
        .ok (⟨if m.role = .model then .model else .user, parts⟩ :: cs)

/-- `recoverHistory().getHistoryMessages()` (interface.ts): keep the messages
with `forDisplay !== true`, map `model` to the model side and everything else
to the user side, and convert every content block — thought blocks
included — into parts. -/
def recoverHistoryMessages (sessionId : String)
    (getImage : String → String → String) (msgs : List PMessage) :
    Except String (List Content) :=
  messagesToContents sessionId getImage
    (msgs.filter (fun m => !(m.forDisplay == some true)))

/-- Whether a genai part carries the thought flag. -/
def isThoughtPart : GPart → Bool
  | .thoughtText _ => true
  | _ => false

/- ### C2 theorems -/

/-- A one-message log: a model message holding only a thought block
(`forDisplay` unset, as `processStreamResponse` persists plan output). -/
def demoThoughtLog : List PMessage :=
  [{ id := "1", role := .model, content := [.thought "plan the click"] }]

/-- C2 counterexample: it is not true that the history recovered by
`recoverHistory` excludes thought blocks — for a log holding a model message
with a thought block, the recovered history contains a thought-flagged part
(which is then sent to the planning LLM). -/
theorem claim2_counterexample :
    ¬ (∀ (msgs : List PMessage) (contents : List Content),
        recoverHistoryMessages "sess" (fun _ _ => "") msgs = .ok contents →
        ∀ c ∈ contents, ∀ p ∈ c.parts, isThoughtPart p = false) := by
  intro hcl
  have := hcl demoThoughtLog
    [⟨.model, [GPart.thoughtText "plan the click"]⟩] rfl
    ⟨.model, [GPart.thoughtText "plan the click"]⟩ (by simp)
    (GPart.thoughtText "plan the click") (by simp)
  simp [isThoughtPart] at this

theorem processChunk_no_appendModel (genId : Nat → String) (role : Role)
    (acc : ChunkAcc) (c : StreamChunk) (ps : List GPart)
    (hacc : AgentEvent.appendModel ps ∉ acc.events) :
    AgentEvent.appendModel ps ∉ (processChunk genId role acc c).events := by
  unfold processChunk
  rcases getResponseText c with _ | tp <;>
    simp only [] <;>
    intro hmem <;>
    first
      | exact hacc hmem
      | (rcases List.mem_append.mp hmem with h | h
         · exact hacc h
         · simp at h)

theorem processChunks_no_appendModel (genId : Nat → String) (role : Role)
    (chunks : List StreamChunk) (acc : ChunkAcc) (ps : List GPart)
    (hacc : AgentEvent.appendModel ps ∉ acc.events) :
    AgentEvent.appendModel ps ∉
      (chunks.foldl (processChunk genId role) acc).events := by
  induction chunks generalizing acc with
  | nil => exact hacc
  | cons c chunks ih =>
      exact ih _ (processChunk_no_appendModel genId role acc c ps hacc)

theorem processStreamResponse_no_appendModel (genId : Nat → String)
    (role : Role) (chunks : List StreamChunk) (forDisplay : Option Bool)
    (idCtr : Nat) (ps : List GPart) :
    AgentEvent.appendModel ps ∉
      (processStreamResponse genId role chunks forDisplay idCtr).events := by
  unfold processStreamResponse
  have hfold := processChunks_no_appendModel genId role chunks
    ⟨"", "", [], [], idCtr⟩ ps (by simp)
  dsimp only
  split
  · intro hmem
    rcases List.mem_append.mp hmem with h | h
    · exact hfold h
    · simp at h
  · exact hfold

theorem blocksToParts_thought (sessionId : String)
    (getImage : String → String → String) (s : String) :
    ∀ (bs : List ContentBlock) (ps : List GPart),
      blocksToParts sessionId getImage bs = .ok ps →
      ContentBlock.thought s ∈ bs → GPart.thoughtText s ∈ ps := by
  intro bs
  induction bs with
  | nil => intro ps _ hmem; simp at hmem
  | cons b bs ih =>
      intro ps hok hmem
      rw [blocksToParts] at hok
      rcases hb : persistentContentBlockToPart sessionId getImage b with e | p <;>
        rw [hb] at hok
      · simp at hok
      · rcases hbs : blocksToParts sessionId getImage bs with e | ps' <;>
          rw [hbs] at hok
        · simp at hok
        · simp at hok
          subst hok
          rcases List.mem_cons.mp hmem with rfl | hmem
          · have : p = GPart.thoughtText s := by
              rw [persistentContentBlockToPart] at hb
              simp at hb
              exact hb.symm
            rw [this]
            exact List.mem_cons_self _ _
          · exact List.mem_cons_of_mem _ (ih ps' hbs hmem)

theorem messagesToContents_thought (sessionId : String)
    (getImage : String → String → String) (s : String) :
    ∀ (l : List PMessage) (cs : List Content),
      messagesToContents sessionId getImage l = .ok cs →
      ∀ m ∈ l, ContentBlock.thought s ∈ m.content →
      ∃ c ∈ cs, GPart.thoughtText s ∈ c.parts := by
  intro l
  induction l with
  | nil => intro cs _ m hm; simp at hm
  | cons m0 ms ih =>
      intro cs hok m hm hth
      rw [messagesToContents] at hok
      rcases hb : blocksToParts sessionId getImage m0.content with e | parts <;>
        rw [hb] at hok
      · simp at hok
      · rcases hms : messagesToContents sessionId getImage ms with e | cs' <;>
          rw [hms] at hok
        · simp at hok
        · simp at hok
          subst hok
          rcases List.mem_cons.mp hm with rfl | hm
          · exact ⟨_, List.mem_cons_self _ _,
              blocksToParts_thought sessionId getImage s m.content parts hb hth⟩
          · obtain ⟨c, hc, hcp⟩ := ih cs' hms m hm hth
            exact ⟨c, List.mem_cons_of_mem _ hc, hcp⟩

/-- C2 amended: the model content appended to the in-memory history after
each plan excludes thought blocks, but the history recovered from storage
does not: every thought block of a non-display-only persisted message
reappears in the recovered history as a thought-flagged part. -/
theorem claim2_amended :
    (∀ (O : AgentOracle) (st : PlanState) (extra : Option String)
        (ps : List GPart),
      AgentEvent.appendModel ps ∈ (planNextStep O st extra).events →
      ∀ p ∈ ps, isThoughtPart p = false) ∧
    (∀ (sessionId : String) (getImage : String → String → String)
        (msgs : List PMessage) (contents : List Content) (s : String),
      recoverHistoryMessages sessionId getImage msgs = .ok contents →
      ∀ m ∈ msgs, m.forDisplay ≠ some true →
      ContentBlock.thought s ∈ m.content →
      ∃ c ∈ contents, GPart.thoughtText s ∈ c.parts) := by
  constructor
  · intro O st extra ps hmem p hp
    unfold planNextStep at hmem
    cases extra <;>
      (dsimp only at hmem
       split at hmem
       · dsimp only at hmem
         rcases List.mem_cons.mp hmem with h | h
         · cases h
         · rcases List.mem_append.mp h with h2 | h2
           · exact absurd h2 (processStreamResponse_no_appendModel _ _ _ _ _ _)
           · simp only [List.mem_singleton] at h2
             injection h2 with h3
             subst h3
             rcases List.mem_append.mp hp with hp1 | hp1
             · split at hp1
               · simp only [List.mem_singleton] at hp1
                 subst hp1
                 rfl
               · simp at hp1
             · obtain ⟨fc, _, rfl⟩ := List.mem_map.mp hp1
               rfl
       · dsimp only at hmem
         rcases List.mem_cons.mp hmem with h | h
         · cases h
         · exact absurd h (processStreamResponse_no_appendModel _ _ _ _ _ _))
  · intro sessionId getImage msgs contents s hok m hm hfd hth
    refine messagesToContents_thought sessionId getImage s _ contents hok m ?_ hth
    rw [List.mem_filter]
    refine ⟨hm, ?_⟩
    simp only [Bool.not_eq_eq_eq_not, Bool.not_true, beq_eq_false_iff_ne]
    exact hfd

/-- C2 witness: the in-memory half applied to the empty-plan environment, and
the recovery half applied to the demo thought log. -/
theorem claim2_witness :
    (∀ p ∈ ([] : List GPart), isThoughtPart p = false) ∧
    (∃ c ∈ [(⟨.model, [GPart.thoughtText "plan the click"]⟩ : Content)],
      GPart.thoughtText "plan the click" ∈ c.parts) :=
  ⟨fun p hp => absurd hp (List.not_mem_nil p),
    claim2_amended.2 "sess" (fun _ _ => "") demoThoughtLog
      [⟨.model, [GPart.thoughtText "plan the click"]⟩] "plan the click" rfl
      { id := "1", role := .model, content := [.thought "plan the click"] }
      (by simp [demoThoughtLog]) (by simp) (by simp)⟩

/- ### C10: thought-only planning streams -/

/-- A planning stream that carries only thought-flagged text: no function
calls, and every chunk with parts has at least one thought-flagged part (so
`getResponseText` classifies its whole merged text as thought). -/
def thoughtOnlyChunks (chunks : List StreamChunk) : Prop :=
  ∀ c ∈ chunks, c.functionCalls = [] ∧
    (c.parts ≠ [] → c.parts.any (fun p => p.thought) = true)

theorem processChunk_thoughtOnly_fields (genId : Nat → String) (role : Role)
    (acc : ChunkAcc) (c : StreamChunk)
    (hc : c.functionCalls = [] ∧ (c.parts ≠ [] → c.parts.any (fun p => p.thought) = true)) :
    (processChunk genId role acc c).output = acc.output ∧
    (processChunk genId role acc c).functionCalls = acc.functionCalls ∧
    (processChunk genId role acc c).idCtr = acc.idCtr := by
  unfold processChunk
  rw [hc.1]
  dsimp only [List.foldl_nil]
  unfold getResponseText
  rcases hps : c.parts with _ | ⟨p, rest⟩
  · exact ⟨by simp, by simp, by simp⟩
  · have hany := hc.2 (by rw [hps]; simp)
    rw [hps] at hany
    dsimp only
    rw [hany]
    exact ⟨by simp, by simp, by simp⟩

theorem foldl_thoughtOnly (genId : Nat → String) (role : Role)
    (chunks : List StreamChunk) (acc : ChunkAcc)
    (h : thoughtOnlyChunks chunks) :
    (chunks.foldl (processChunk genId role) acc).output = acc.output ∧
    (chunks.foldl (processChunk genId role) acc).functionCalls = acc.functionCalls ∧
    (chunks.foldl (processChunk genId role) acc).idCtr = acc.idCtr := by
  induction chunks generalizing acc with
  | nil => exact ⟨rfl, rfl, rfl⟩
  | cons c cs ih =>
      have hc := h c (List.mem_cons_self _ _)
      have hstep := processChunk_thoughtOnly_fields genId role acc c hc
      obtain ⟨h1, h2, h3⟩ := ih (processChunk genId role acc c)
        (fun x hx => h x (List.mem_cons_of_mem _ hx))
      rw [List.foldl_cons]
      exact ⟨h1.trans hstep.1, h2.trans hstep.2.1, h3.trans hstep.2.2⟩

theorem processChunk_no_persist (genId : Nat → String) (role : Role)
    (acc : ChunkAcc) (c : StreamChunk) (m : AgentPersistMessage)
    (hacc : AgentEvent.persist m ∉ acc.events) :
    AgentEvent.persist m ∉ (processChunk genId role acc c).events := by
  unfold processChunk
  rcases getResponseText c with _ | tp <;>
    simp only [] <;>
    intro hmem <;>
    first
      | exact hacc hmem
      | (rcases List.mem_append.mp hmem with h | h
         · exact hacc h
         · simp at h)

theorem processChunks_no_persist (genId : Nat → String) (role : Role)
    (chunks : List StreamChunk) (acc : ChunkAcc) (m : AgentPersistMessage)
    (hacc : AgentEvent.persist m ∉ acc.events) :
    AgentEvent.persist m ∉
      (chunks.foldl (processChunk genId role) acc).events := by
  induction chunks generalizing acc with
  | nil => exact hacc
  | cons c chunks ih =>
      exact ih _ (processChunk_no_persist genId role acc c m hacc)

theorem psr_thoughtOnly (genId : Nat → String) (role : Role)
    (chunks : List StreamChunk) (fd : Option Bool) (ctr : Nat)
    (h : thoughtOnlyChunks chunks) :
    processStreamResponse genId role chunks fd ctr =
      chunks.foldl (processChunk genId role) ⟨"", "", [], [], ctr⟩ := by
  unfold processStreamResponse
  dsimp only
  have hf := foldl_thoughtOnly genId role chunks ⟨"", "", [], [], ctr⟩ h
  rw [if_neg]
  rw [hf.1, hf.2.1]
  simp

/-- The environment with the stream at index `i0` replaced by the empty
stream. -/
def replaceStream (O : AgentOracle) (i0 : Nat) : AgentOracle :=
  { O with planStream := fun i => if i = i0 then [] else O.planStream i }

theorem planNextStep_thoughtOnly (O : AgentOracle) (st : PlanState)
    (extra : Option String) (h : thoughtOnlyChunks (O.planStream st.planIdx)) :
    (planNextStep O st extra).success = false ∧
    (planNextStep O st extra).functionCalls = [] ∧
    (∀ m, AgentEvent.persist m ∉ (planNextStep O st extra).events) ∧
    (planNextStep O st extra).st =
      (planNextStep (replaceStream O st.planIdx) st extra).st := by
  have hpsr := psr_thoughtOnly O.genId .model (O.planStream st.planIdx) none st.idCtr h
  have hf := foldl_thoughtOnly O.genId .model (O.planStream st.planIdx)
    ⟨"", "", [], [], st.idCtr⟩ h
  have hcond : ¬ ((processStreamResponse O.genId .model (O.planStream st.planIdx)
      none st.idCtr).output ≠ "" ∨
      (processStreamResponse O.genId .model (O.planStream st.planIdx)
        none st.idCtr).functionCalls.isEmpty = false) := by
    rw [hpsr, hf.1, hf.2.1]
    simp
  refine ⟨?_, ?_, ?_, ?_⟩
  · unfold planNextStep
    rw [if_neg hcond]
  · unfold planNextStep
    rw [if_neg hcond]
  · intro m
    unfold planNextStep
    rw [if_neg hcond]
    dsimp only
    intro hmem
    rcases List.mem_cons.mp hmem with heq | hmem
    · cases heq
    · rw [hpsr] at hmem
      exact processChunks_no_persist O.genId .model (O.planStream st.planIdx)
        ⟨"", "", [], [], st.idCtr⟩ m (by simp) hmem
  · unfold planNextStep
    have hsr : (replaceStream O st.planIdx).planStream st.planIdx = [] := by
      simp [replaceStream]
    rw [hsr]
    have hcond2 : ¬ ((processStreamResponse (replaceStream O st.planIdx).genId
        .model [] none st.idCtr).output ≠ "" ∨
        (processStreamResponse (replaceStream O st.planIdx).genId .model []
          none st.idCtr).functionCalls.isEmpty = false) := by
      simp [processStreamResponse]
    rw [if_neg hcond, if_neg hcond2]
    have h1 : (processStreamResponse O.genId Role.model
        (O.planStream st.planIdx) none st.idCtr).idCtr = st.idCtr := by
      rw [hpsr]
      exact hf.2.2
    have h2 : (processStreamResponse (replaceStream O st.planIdx).genId
        Role.model [] none st.idCtr).idCtr = st.idCtr := rfl
    dsimp only
    rw [h1, h2]

theorem planLLM_mem_events (O : AgentOracle) (st : PlanState)
    (extra : Option String) :
    AgentEvent.planLLM extra ∈ (planNextStep O st extra).events := by
  unfold planNextStep
  cases extra <;> dsimp only <;> split <;> exact List.mem_cons_self _ _

theorem planPhase_retry_mem (O : AgentOracle) (st1 : PlanState)
    (h1 : (planNextStep O st1 none).success = false) :
    AgentEvent.planLLM (some "continue") ∈ (planPhase O st1).1 := by
  unfold planPhase
  dsimp only
  rw [if_neg (by rw [h1]; simp)]
  have hm := planLLM_mem_events O (planNextStep O st1 none).st (some "continue")
  split <;> simp only [List.mem_append] <;> tauto

/-- The plan state after appending the screenshot label and tiles. -/
def withScreenshotParts (O : AgentOracle) (turn : Nat) (st : PlanState) :
    PlanState :=
  { st with
    currentParts := st.currentParts ++
      GPart.text (O.screenshotLabel turn) :: O.croppedParts turn }

theorem runTurns_shape (O : AgentOracle) (allowed : List String) (fuel : Nat)
    (st : PlanState) (turn : Nat) :
    ∃ tail, runTurns O allowed (fuel + 1) st turn =
      (turnPrefixEvents O turn ++
        (planPhase O (withScreenshotParts O turn st)).1) ++ tail := by
  unfold runTurns
  dsimp only
  split
  · exact ⟨_, rfl⟩
  · split
    · exact ⟨_, by simp only [List.append_assoc]; rfl⟩
    · split
      · exact ⟨_, by simp only [List.append_assoc]; rfl⟩
      · split
        · exact ⟨_, by simp only [List.append_assoc]; rfl⟩
        · exact ⟨_, by simp only [List.append_assoc]; rfl⟩

/-- C10: a planning stream carrying only thought-flagged text is treated
exactly like an empty response — the plan reports no success and no calls,
persists no model message (the collected thought is discarded: the post-plan
state equals that of an empty stream), and in the full run the `"continue"`
retry is issued. -/
theorem claim10_thought_only (O : AgentOracle) (hist : List Content)
    (allowed : List String) (t : String) (fuel : Nat)
    (h : thoughtOnlyChunks (O.planStream 0)) :
    (∀ st : PlanState, st.planIdx = 0 →
      (planNextStep O st none).success = false ∧
      (planNextStep O st none).functionCalls = [] ∧
      (∀ m, AgentEvent.persist m ∉ (planNextStep O st none).events) ∧
      (planNextStep O st none).st = (planNextStep (replaceStream O 0) st none).st) ∧
    AgentEvent.planLLM (some "continue") ∈
      runAgent O hist (.text t) allowed (fuel + 1) := by
  have hgen : ∀ st : PlanState, st.planIdx = 0 →
      (planNextStep O st none).success = false ∧
      (planNextStep O st none).functionCalls = [] ∧
      (∀ m, AgentEvent.persist m ∉ (planNextStep O st none).events) ∧
      (planNextStep O st none).st =
        (planNextStep (replaceStream O 0) st none).st := by
    intro st hst
    obtain ⟨cp, cx, pi, ic⟩ := st
    cases hst
    exact planNextStep_thoughtOnly O ⟨cp, cx, 0, ic⟩ none h
  refine ⟨hgen, ?_⟩
  unfold runAgent
  refine List.mem_cons_of_mem _ ?_
  obtain ⟨tail, htail⟩ := runTurns_shape O allowed fuel
    ⟨[GPart.text t], mergeAdjacentMessages hist, 0, 0⟩ 0
  rw [htail]
  refine List.mem_append_left _ (List.mem_append_right _ ?_)
  exact planPhase_retry_mem O _ (hgen _ rfl).1

/-- A concrete environment whose first planning stream is a single chunk of
thought-flagged text. -/
def thoughtOracle : AgentOracle :=
  { emptyOracle with
    planStream := fun i => if i = 0 then [⟨[⟨"thinking about it", true⟩], []⟩] else [] }

/-- C10 witness: with the thought-only stream, the run issues the
`"continue"` retry. -/
theorem claim10_witness :
    AgentEvent.planLLM (some "continue") ∈
      runAgent thoughtOracle [] (.text "go") [] 1 :=
  (claim10_thought_only thoughtOracle [] [] "go" 0
    (by
      intro c hc
      simp [thoughtOracle] at hc
      subst hc
      exact ⟨rfl, fun _ => rfl⟩)).2
